import Mathlib

/-!
Shallow embedding of src/pagerank.py: the functions transition_model,
sample_pagerank, iterate_pagerank and iterate, together with theorems
settling the specification claims about them.

Modelling conventions.  Python floats are modelled as exact rationals.
Python dicts, which preserve insertion order, are modelled as association
lists built in the same order the source builds them.  A raised Python
exception (KeyError, IndexError, ValueError, ZeroDivisionError) is
modelled as the value none.  The randomness consumed by the sampler is an
injected stream of rationals in [0,1), standing for successive outputs of
random.random; random.choice and random.choices are modelled by the index
and cumulative-weight lookups they perform on such a draw.  The unbounded
recursion of iterate is modelled with an explicit fuel argument; running
out of fuel yields none, and the theorems characterise success
independently of the particular fuel supplied.
-/

namespace Pagerank

abbrev PageId := String

abbrev Graph := List (PageId × List PageId)

abbrev Dist := List (PageId × ℚ)

abbrev RankV := List (PageId × ℚ)

/-- Module constant DAMPING = 0.85 (src/pagerank.py line 6). -/
def DAMPING : ℚ := 85 / 100

/-- Module constant SAMPLES = 10000 (src/pagerank.py line 7). -/
def SAMPLES : ℤ := 10000

/-- Python dict lookup d[k]: the entry with the given key; none models the
KeyError raised when the key is absent. -/
def dictGet {α : Type} : List (PageId × α) → PageId → Option α
  | [], _ => none
  | (a, b) :: t, k => if a = k then some b else dictGet t k

/-- Python round to the nearest integer with ties to even, the rounding
used by round(x, 4). -/
def roundHalfEven (x : ℚ) : ℤ :=
  if x - ⌊x⌋ < 1 / 2 then ⌊x⌋
  else if 1 / 2 < x - ⌊x⌋ then ⌊x⌋ + 1
  else if Even ⌊x⌋ then ⌊x⌋ else ⌊x⌋ + 1

/-- round(x, 4) as applied on src/pagerank.py line 74. -/
def round4 (x : ℚ) : ℚ := (roundHalfEven (x * 10000) : ℚ) / 10000

/-- transition_model (src/pagerank.py lines 53-75).  The dict out is built
by one pass over corpus.items in both branches. -/
def transition_model (corpus : Graph) (page : PageId) (damping_factor : ℚ) :
    Option Dist :=
  match dictGet corpus page with
  | none => none
  | some links =>
    if links.length = 0 then
      some (corpus.map (fun kv => (kv.1, damping_factor / corpus.length)))
    else
      some (corpus.map (fun kv =>
        if kv.1 ∈ links then
          (kv.1, damping_factor / links.length + (1 - damping_factor) / corpus.length)
        else
          (kv.1, round4 ((1 - damping_factor) / corpus.length))))

/-- random.choice on a list, driven by a uniform draw u in [0,1): the
picked index is the floor of u scaled by the length.  An out-of-range
index, in particular on the empty list, gives none (IndexError). -/
def pickIndex (u : ℚ) (len : ℕ) : ℕ := (⌊u * (len : ℚ)⌋).toNat

/-- random.choices with relative weights: scan the cumulative weights for
the first one exceeding the target, clamped to the last element exactly as
the bisect call in the library does; none models the failure on an empty
population. -/
def wchoiceAux : List (PageId × ℚ) → ℚ → Option PageId
  | [], _ => none
  | [(p, _)], _ => some p
  | (p, w) :: kv :: t, target =>
    if target < w then some p else wchoiceAux (kv :: t) (target - w)

def wchoice (items : List (PageId × ℚ)) (u : ℚ) : Option PageId :=
  wchoiceAux items (u * (items.map Prod.snd).sum)

/-- The visit-recording loop of sample_pagerank (src/pagerank.py lines
98-100 and 108-110): add one to the entry whose key equals the page. -/
def bump (results : List (PageId × ℕ)) (page : PageId) : List (PageId × ℕ) :=
  results.map (fun kv => if kv.1 = page then (kv.1, kv.2 + 1) else kv)

/-- The main sampling loop of sample_pagerank (src/pagerank.py lines
104-111): draw the next page from the current distribution, record one
visit, and recompute the distribution from the drawn page. -/
def sampleSteps (corpus : Graph) (damping_factor : ℚ) :
    ℕ → (ℕ → ℚ) → Dist → List (PageId × ℕ) → Option (List (PageId × ℕ))
  | 0, _, _, results => some results
  | t + 1, us, sequence, results =>
    match wchoice sequence (us 0) with
    | none => none
    | some next_page =>
      match transition_model corpus next_page damping_factor with
      | none => none
      | some seq2 =>
        sampleSteps corpus damping_factor t (fun i => us (i + 1)) seq2
          (bump results next_page)

/-- sample_pagerank (src/pagerank.py lines 81-116).  n is the Python int
argument; the loop runs range(n-1) times, hence (n-1).toNat steps.  The
final division v / n raises ZeroDivisionError when n = 0, modelled by the
explicit check. -/
def sample_pagerank (corpus : Graph) (damping_factor : ℚ) (n : ℤ)
    (us : ℕ → ℚ) : Option (List (PageId × ℚ)) :=
  let results0 : List (PageId × ℕ) := corpus.map (fun kv => (kv.1, 0))
  match (corpus.map Prod.fst)[pickIndex (us 0) corpus.length]? with
  | none => none
  | some random_page =>
    match transition_model corpus random_page damping_factor with
    | none => none
    | some sequence =>
      match sampleSteps corpus damping_factor (n - 1).toNat (fun i => us (i + 1))
          sequence (bump results0 random_page) with
      | none => none
      | some results =>
        if n = 0 then none
        else some (results.map (fun kv => (kv.1, (kv.2 : ℚ) / (n : ℚ))))

/-- The inner summation loop of iterate (src/pagerank.py lines 144-152).
values[key] is modelled as dictGet with default 0; this is sound because
iterate only ever receives vectors holding exactly the corpus keys, so the
default is never taken on the calls the theorems are about. -/
def summation (corpus : Graph) (values : RankV) (k : PageId) : ℚ :=
  corpus.foldl (fun acc kv =>
    if kv.2.length = 0 then acc + (dictGet values kv.1).getD 0 / (corpus.length : ℚ)
    else if k ∈ kv.2 then acc + (dictGet values kv.1).getD 0 / (kv.2.length : ℚ)
    else acc) 0

/-- One pass of the outer update loop of iterate: the dict temp after
src/pagerank.py lines 143-154.  Note the source reads the module constant
DAMPING here, not a parameter. -/
def step (corpus : Graph) (values : RankV) : RankV :=
  values.map (fun kv =>
    (kv.1, (1 - DAMPING) / (corpus.length : ℚ) + DAMPING * summation corpus values kv.1))

/-- The elementwise absolute differences diff (src/pagerank.py lines
156-160), pairing the two value lists positionally. -/
def diffs (v t : RankV) : List ℚ :=
  List.zipWith (fun a b => |a - b|) (v.map Prod.snd) (t.map Prod.snd)

/-- Python max on a list; none models the ValueError raised on an empty
list. -/
def maxList : List ℚ → Option ℚ
  | [] => none
  | x :: t => some (t.foldl max x)

/-- iterate (src/pagerank.py lines 138-165), with explicit fuel for the
unbounded recursion and explicit passing of the process-wide variable temp
(declared global on line 140).  The second component of the result is the
global temp after the call.  Python discards the value of the recursive
call on line 163, and line 165 returns the name temp, which denotes the
global, last assigned by the deepest recursive call; this is modelled by
returning g.getD t, which the invariant lemmas show always reads the value
the recursion stored. -/
def iterate (corpus : Graph) : ℕ → RankV → Option RankV → Option (RankV × Option RankV)
  | 0, _, _ => none
  | fuel + 1, values, _temp =>
    let t := step corpus values
    match maxList (diffs values t) with
    | none => none
    | some m =>
      if 1 / 1000 < m then
        match iterate corpus fuel t (some t) with
        | none => none
        | some (_discarded, g) => some (g.getD t, g)
      else
        some (t, some t)

/-- The initialization loop of iterate_pagerank (src/pagerank.py lines
130-133): every page starts at 1 / N. -/
def initRank (corpus : Graph) : RankV :=
  corpus.map (fun kv => (kv.1, 1 / (corpus.length : ℚ)))

/-- iterate_pagerank (src/pagerank.py lines 121-135).  damping_factor is
accepted and never used, exactly as in the source, where iterate reads the
module constant DAMPING instead.  temp0 is the value of the process-wide
variable temp before the call. -/
def iterate_pagerank (corpus : Graph) (damping_factor : ℚ)
    (temp0 : Option RankV) (fuel : ℕ) : Option (RankV × Option RankV) :=
  iterate corpus fuel (initRank corpus) temp0

/-- The k-fold application of the update pass, used to state the
convergence claims. -/
def stepN (corpus : Graph) (k : ℕ) (values : RankV) : RankV :=
  (step corpus)^[k] values

/-- The convergence measure of one update pass: the Python expression
max(diff) computed on lines 156-162, as a function of the incoming
vector. -/
def delta (corpus : Graph) (v : RankV) : Option ℚ :=
  maxList (diffs v (step corpus v))

theorem dictGet_eq_none (l : List (PageId × List PageId)) (p : PageId)
    (h : p ∉ l.map Prod.fst) : dictGet l p = none := by
  induction l with
  | nil => rfl
  | cons kv t ih =>
    simp only [List.map_cons, List.mem_cons, not_or] at h
    have e : ¬ kv.1 = p := fun e => h.1 e.symm
    simp only [dictGet, if_neg e]
    exact ih h.2

theorem dictGet_eq_some {α : Type} (l : List (PageId × α)) (p : PageId)
    (h : p ∈ l.map Prod.fst) : ∃ b, dictGet l p = some b := by
  induction l with
  | nil => simp at h
  | cons kv t ih =>
    by_cases e : kv.1 = p
    · exact ⟨kv.2, by simp [dictGet, e]⟩
    · simp only [List.map_cons, List.mem_cons] at h
      rcases h with h | h
      · exact absurd h.symm e
      · simpa [dictGet, e] using ih h

theorem dictGet_mem {α : Type} (l : List (PageId × α)) (p : PageId) (b : α)
    (h : dictGet l p = some b) : (p, b) ∈ l := by
  induction l with
  | nil => simp [dictGet] at h
  | cons kv t ih =>
    obtain ⟨a, c⟩ := kv
    by_cases e : a = p
    · simp only [dictGet, if_pos e] at h
      obtain rfl : c = b := by injection h
      subst e
      exact List.mem_cons_self _ _
    · simp only [dictGet, if_neg e] at h
      exact List.mem_cons_of_mem _ (ih h)

theorem transition_model_keys (corpus : Graph) (page : PageId) (d : ℚ)
    (out : Dist) (h : transition_model corpus page d = some out) :
    out.map Prod.fst = corpus.map Prod.fst := by
  unfold transition_model at h
  cases hg : dictGet corpus page with
  | none => rw [hg] at h; exact absurd h (by simp)
  | some links =>
    rw [hg] at h
    dsimp only at h
    by_cases hl : links.length = 0
    · rw [if_pos hl] at h
      obtain rfl : _ = out := by injection h
      simp [List.map_map]
    · rw [if_neg hl] at h
      obtain rfl : _ = out := by injection h
      simp only [List.map_map]
      refine List.map_congr_left (fun kv _ => ?_)
      by_cases hm : kv.1 ∈ links <;> simp [hm]

theorem transition_model_isSome (corpus : Graph) (page : PageId) (d : ℚ)
    (h : page ∈ corpus.map Prod.fst) :
    ∃ out, transition_model corpus page d = some out := by
  obtain ⟨links, hl⟩ := dictGet_eq_some corpus page h
  unfold transition_model
  rw [hl]
  by_cases h0 : links.length = 0
  · exact ⟨_, if_pos h0⟩
  · exact ⟨_, if_neg h0⟩

/-- C8: transition_model invoked with a page that is not a key of the graph
fails: the dict subscript corpus[page] on line 64 raises KeyError before
anything is computed, which is the UnknownPage failure of the claim. -/
theorem C8_unknown_page (corpus : Graph) (page : PageId) (d : ℚ)
    (h : page ∉ corpus.map Prod.fst) :
    transition_model corpus page d = none := by
  unfold transition_model
  rw [dictGet_eq_none corpus page h]

/-- Witness for C8 at a concrete graph and page. -/
theorem C8_unknown_page_witness :
    "c.html" ∉ ([("a.html", ["b.html"]), ("b.html", [])] : Graph).map Prod.fst ∧
    transition_model [("a.html", ["b.html"]), ("b.html", [])] "c.html" (85 / 100) = none :=
  ⟨by decide, C8_unknown_page _ "c.html" (85 / 100) (by decide)⟩

/-- C7: on the empty graph every estimator fails and returns no result:
transition_model raises KeyError on line 64 (no page is a key of an empty
dict), sample_pagerank raises IndexError in random.choice on line 96 (empty
population), and iterate_pagerank reaches max on an empty diff list inside
iterate, a ValueError, on line 162.  All three failures are modelled as
none. -/
theorem C7_empty_graph (page : PageId) (d : ℚ) (n : ℤ) (us : ℕ → ℚ)
    (temp0 : Option RankV) (fuel : ℕ) :
    transition_model [] page d = none ∧
    sample_pagerank [] d n us = none ∧
    iterate_pagerank [] d temp0 fuel = none := by
  refine ⟨rfl, rfl, ?_⟩
  cases fuel with
  | zero => rfl
  | succ f => rfl

/-- C1: evaluation of the code at the failing input.  With the injected
damping d = 0 the recurrence of the claim reads rank(p) = (1 - 0) / N + 0,
so every update would produce the uniform vector, the first delta would be
0, and iterate_pagerank would return exactly half to each of the two
pages.  The code instead updates with the module constant DAMPING = 0.85
(line 154), ignoring the parameter: it returns a vector different from the
uniform one, and the result is literally independent of the injected
damping value. -/
theorem C1_damping_ignored :
    (iterate_pagerank [("A", ["B"]), ("B", [])] 0 none 100).isSome = true ∧
    (iterate_pagerank [("A", ["B"]), ("B", [])] 0 none 100).map Prod.fst ≠
      some [("A", (1 : ℚ) / 2), ("B", (1 : ℚ) / 2)] ∧
    ∀ d d' : ℚ, iterate_pagerank [("A", ["B"]), ("B", [])] d none 100 =
      iterate_pagerank [("A", ["B"]), ("B", [])] d' none 100 :=
  ⟨by with_unfolding_all decide, by with_unfolding_all decide, fun d d' => rfl⟩

/-- C2 counterexample: the one-page graph whose page has no outgoing links,
with damping 0.85.  transition_model returns the distribution assigning
0.85 to the only page, whose values sum to 0.85, which is not within 1e-4
of 1. -/
theorem C2_cex :
    transition_model [("a.html", [])] "a.html" (85 / 100) =
      some [("a.html", 85 / 100)] ∧
    ¬ |(([("a.html", (85 : ℚ) / 100)] : Dist).map Prod.snd).sum - 1| ≤ 1 / 10000 :=
  ⟨by with_unfolding_all decide, by with_unfolding_all decide⟩

/-- C6 counterexample: sample_pagerank called with n = -1 < 1 does not
fail; it runs zero steps of the loop (range(-2) is empty), divides the
visit counts by -1, and returns the rank vector assigning -1 to the
starting page. -/
theorem C6_cex :
    sample_pagerank [("a.html", [])] (85 / 100) (-1) (fun _ => 0) =
      some [("a.html", -1)] := by
  with_unfolding_all decide

/-- C6 amended: only n = 0 fails.  The division of the visit counts by n
on line 114 raises ZeroDivisionError, so no rank vector is returned; there
is no explicit validation of n, and negative n is not rejected. -/
theorem C6_amended (corpus : Graph) (d : ℚ) (us : ℕ → ℚ) :
    sample_pagerank corpus d 0 us = none := by
  unfold sample_pagerank
  cases h1 : (corpus.map Prod.fst)[pickIndex (us 0) corpus.length]? with
  | none => rfl
  | some random_page =>
    dsimp only
    cases h2 : transition_model corpus random_page d with
    | none => rfl
    | some sequence =>
      dsimp only
      cases h3 : sampleSteps corpus d ((0 : ℤ) - 1).toNat (fun i => us (i + 1))
          sequence (bump (corpus.map fun kv => (kv.1, 0)) random_page) with
      | none => rfl
      | some results => simp

/-- C9 counterexample: iterate stores its working vector in the
process-wide variable temp (global temp, line 140).  Starting from a state
in which temp is unset (modelled as none), a call to iterate_pagerank on
the two-page cycle terminates after one pass and leaves temp bound to the
returned vector: mutable state outside the return value has been
modified. -/
theorem C9_cex :
    ∃ r g, iterate_pagerank [("A", ["B"]), ("B", ["A"])] (85 / 100) none 1 =
      some (r, g) ∧ g ≠ none :=
  ⟨[("A", 1 / 2), ("B", 1 / 2)], some [("A", 1 / 2), ("B", 1 / 2)],
    by with_unfolding_all decide, by simp⟩

/-- C4: for a page of the graph, transition_model assigns every page of
the graph damping / N when the link set of the page is empty, and
otherwise damping / len(links) + (1 - damping) / N to each page in the
link set and round((1 - damping) / N, 4) to each page outside it, exactly
as lines 66-74 compute. -/
theorem C4_transition_values (corpus : Graph) (page : PageId) (d : ℚ)
    (links : List PageId) (h : dictGet corpus page = some links) :
    ∃ out, transition_model corpus page d = some out ∧
      out.map Prod.fst = corpus.map Prod.fst ∧
      ∀ kv ∈ out, kv.2 =
        if links.length = 0 then d / (corpus.length : ℚ)
        else if kv.1 ∈ links then
          d / (links.length : ℚ) + (1 - d) / (corpus.length : ℚ)
        else round4 ((1 - d) / (corpus.length : ℚ)) := by
  unfold transition_model
  rw [h]
  dsimp only
  by_cases h0 : links.length = 0
  · refine ⟨_, if_pos h0, by simp [List.map_map], ?_⟩
    intro kv hkv
    rw [List.mem_map] at hkv
    obtain ⟨kv0, _, rfl⟩ := hkv
    simp [List.length_eq_zero.mp h0]
  · refine ⟨_, if_neg h0, ?_, ?_⟩
    · simp only [List.map_map]
      refine List.map_congr_left (fun kv _ => ?_)
      by_cases hm : kv.1 ∈ links <;> simp [hm]
    · intro kv hkv
      rw [List.mem_map] at hkv
      obtain ⟨kv0, _, rfl⟩ := hkv
      have h0' : links ≠ [] := fun e => h0 (by simp [e])
      by_cases hm : kv0.1 ∈ links <;> simp [hm, h0']

/-- Witness for C4 on the three-page scenario graph of the specification,
at the page with two outgoing links. -/
theorem C4_transition_values_witness :
    ∃ out, transition_model
        [("1.html", ["2.html"]), ("2.html", ["1.html", "3.html"]), ("3.html", ["2.html"])]
        "2.html" (85 / 100) = some out ∧
      out.map Prod.fst =
        ([("1.html", ["2.html"]), ("2.html", ["1.html", "3.html"]),
          ("3.html", ["2.html"])] : Graph).map Prod.fst ∧
      ∀ kv ∈ out, kv.2 =
        if (["1.html", "3.html"] : List PageId).length = 0 then (85 / 100 : ℚ) / 3
        else if kv.1 ∈ (["1.html", "3.html"] : List PageId) then
          (85 / 100 : ℚ) / 2 + (1 - 85 / 100) / 3
        else round4 ((1 - 85 / 100) / 3) :=
  C4_transition_values _ "2.html" (85 / 100) ["1.html", "3.html"] (by decide)

theorem step_keys (c : Graph) (v : RankV) :
    (step c v).map Prod.fst = v.map Prod.fst := by
  simp [step, List.map_map, Function.comp]

theorem iterate_global (c : Graph) :
    ∀ f v g r gl, iterate c f v g = some (r, gl) → gl = some r := by
  intro f
  induction f with
  | zero =>
    intro v g r gl h
    exact absurd h (by simp [iterate])
  | succ f ih =>
    intro v g r gl h
    unfold iterate at h
    replace h : (match maxList (diffs v (step c v)) with
      | none => none
      | some m =>
        if 1 / 1000 < m then
          match iterate c f (step c v) (some (step c v)) with
          | none => none
          | some (_discarded, g) => some (g.getD (step c v), g)
        else some (step c v, some (step c v))) = some (r, gl) := h
    cases hm : maxList (diffs v (step c v)) with
    | none => rw [hm] at h; exact absurd h (by simp)
    | some m =>
      rw [hm] at h
      dsimp only at h
      by_cases ht : 1 / 1000 < m
      · rw [if_pos ht] at h
        cases hr : iterate c f (step c v) (some (step c v)) with
        | none => rw [hr] at h; exact absurd h (by simp)
        | some p =>
          obtain ⟨r', g'⟩ := p
          rw [hr] at h
          dsimp only at h
          have h1 : g'.getD (step c v) = r ∧ g' = gl := by
            constructor <;> injection h with h2 <;> injection h2
          have h2 : g' = some r' := ih (step c v) (some (step c v)) r' g' hr
          rw [← h1.2, h2]
          rw [h2] at h1
          simpa using h1.1
      · rw [if_neg ht] at h
        have h1 : step c v = r ∧ some (step c v) = gl := by
          constructor <;> injection h with h2 <;> injection h2
        rw [← h1.2, h1.1]

theorem stepN_zero (c : Graph) (v : RankV) : stepN c 0 v = v := rfl

theorem stepN_succ (c : Graph) (k : ℕ) (v : RankV) :
    stepN c (k + 1) v = stepN c k (step c v) :=
  Function.iterate_succ_apply (step c) k v

theorem iterate_sound (c : Graph) :
    ∀ f v g r gl, iterate c f v g = some (r, gl) →
      ∃ k, k < f ∧ r = stepN c (k + 1) v ∧
        (∃ m, delta c (stepN c k v) = some m ∧ m ≤ 1 / 1000) ∧
        (∀ j, j < k → ∃ m, delta c (stepN c j v) = some m ∧ 1 / 1000 < m) := by
  intro f
  induction f with
  | zero =>
    intro v g r gl h
    exact absurd h (by simp [iterate])
  | succ f ih =>
    intro v g r gl h
    unfold iterate at h
    replace h : (match maxList (diffs v (step c v)) with
      | none => none
      | some m =>
        if 1 / 1000 < m then
          match iterate c f (step c v) (some (step c v)) with
          | none => none
          | some (_discarded, g) => some (g.getD (step c v), g)
        else some (step c v, some (step c v))) = some (r, gl) := h
    cases hm : maxList (diffs v (step c v)) with
    | none => rw [hm] at h; exact absurd h (by simp)
    | some m =>
      rw [hm] at h
      dsimp only at h
      by_cases ht : 1 / 1000 < m
      · rw [if_pos ht] at h
        cases hr : iterate c f (step c v) (some (step c v)) with
        | none => rw [hr] at h; exact absurd h (by simp)
        | some p =>
          obtain ⟨r', g'⟩ := p
          rw [hr] at h
          dsimp only at h
          have hg : g' = some r' := iterate_global c f _ _ _ _ hr
          have h1 : g'.getD (step c v) = r := by injection h with h2; injection h2
          have hrr : r = r' := by rw [← h1, hg]; rfl
          obtain ⟨k', hk'f, hk'r, hk'c, hk'p⟩ := ih (step c v) (some (step c v)) r' g' hr
          refine ⟨k' + 1, by omega, ?_, ?_, ?_⟩
          · rw [hrr, hk'r]
            exact (stepN_succ c (k' + 1) v).symm
          · rw [stepN_succ]
            exact hk'c
          · intro j hj
            cases j with
            | zero =>
              refine ⟨m, ?_, ht⟩
              rw [stepN_zero, delta, hm]
            | succ j' =>
              rw [stepN_succ]
              exact hk'p j' (by omega)
      · rw [if_neg ht] at h
        have h1 : step c v = r := by injection h with h2; injection h2
        refine ⟨0, by omega, ?_, ⟨m, ?_, not_lt.mp ht⟩, by omega⟩
        · rw [← h1, stepN, Function.iterate_one]
        · rw [stepN, Function.iterate_zero_apply, delta, hm]

theorem iterate_complete (c : Graph) :
    ∀ k v g,
      (∃ m, delta c (stepN c k v) = some m ∧ m ≤ 1 / 1000) →
      (∀ j, j < k → ∃ m, delta c (stepN c j v) = some m ∧ 1 / 1000 < m) →
      iterate c (k + 1) v g = some (stepN c (k + 1) v, some (stepN c (k + 1) v)) := by
  intro k
  induction k with
  | zero =>
    intro v g hc _
    obtain ⟨m, hm, hle⟩ := hc
    rw [stepN_zero, delta] at hm
    unfold iterate
    show (match maxList (diffs v (step c v)) with
      | none => none
      | some m =>
        if 1 / 1000 < m then
          match iterate c 0 (step c v) (some (step c v)) with
          | none => none
          | some (_discarded, g) => some (g.getD (step c v), g)
        else some (step c v, some (step c v))) =
      some (stepN c (0 + 1) v, some (stepN c (0 + 1) v))
    rw [hm]
    dsimp only
    rw [if_neg (not_lt.mpr hle)]
    rw [stepN_succ, stepN_zero]
  | succ k ih =>
    intro v g hc hp
    obtain ⟨m0, hm0, hgt0⟩ := hp 0 (by omega)
    rw [stepN_zero, delta] at hm0
    unfold iterate
    show (match maxList (diffs v (step c v)) with
      | none => none
      | some m =>
        if 1 / 1000 < m then
          match iterate c (k + 1) (step c v) (some (step c v)) with
          | none => none
          | some (_discarded, g) => some (g.getD (step c v), g)
        else some (step c v, some (step c v))) =
      some (stepN c (k + 1 + 1) v, some (stepN c (k + 1 + 1) v))
    rw [hm0]
    dsimp only
    rw [if_pos hgt0]
    have hrec := ih (step c v) (some (step c v)) ?_ ?_
    · rw [hrec]
      dsimp only
      rw [stepN_succ c (k + 1) v]
      rfl
    · rw [← stepN_succ]
      exact hc
    · intro j hj
      rw [stepN, ← Function.iterate_succ_apply, ← stepN]
      exact hp (j + 1) (by omega)


/-- C3: iterate_pagerank initializes every rank to 1 / N (part 1); every
successful run returns exactly the (k+1)-st update of that initial vector,
where k is the first index at which the maximum per-page absolute change
of one update is at most 0.001, all earlier changes exceeding it (part 2);
and conversely, whenever such a first crossing index k exists the
recursion terminates there and returns that iterate (part 3) - the
threshold is the sole termination criterion, the fuel being only an
artifact of embedding the unbounded Python recursion. -/
theorem C3_convergence (corpus : Graph) (d : ℚ) :
    (∀ kv ∈ initRank corpus, kv.2 = 1 / (corpus.length : ℚ)) ∧
    (∀ temp0 fuel r gl, iterate_pagerank corpus d temp0 fuel = some (r, gl) →
      ∃ k, r = stepN corpus (k + 1) (initRank corpus) ∧
        (∃ m, delta corpus (stepN corpus k (initRank corpus)) = some m ∧
          m ≤ 1 / 1000) ∧
        (∀ j, j < k → ∃ m, delta corpus (stepN corpus j (initRank corpus)) = some m ∧
          1 / 1000 < m)) ∧
    (∀ temp0 k,
      (∃ m, delta corpus (stepN corpus k (initRank corpus)) = some m ∧
        m ≤ 1 / 1000) →
      (∀ j, j < k → ∃ m, delta corpus (stepN corpus j (initRank corpus)) = some m ∧
        1 / 1000 < m) →
      iterate_pagerank corpus d temp0 (k + 1) =
        some (stepN corpus (k + 1) (initRank corpus),
          some (stepN corpus (k + 1) (initRank corpus)))) := by
  refine ⟨?_, ?_, ?_⟩
  · intro kv hkv
    rw [initRank, List.mem_map] at hkv
    obtain ⟨kv0, _, rfl⟩ := hkv
    rfl
  · intro temp0 fuel r gl h
    obtain ⟨k, _, hk⟩ := iterate_sound corpus fuel (initRank corpus) temp0 r gl h
    exact ⟨k, hk⟩
  · intro temp0 k hc hp
    exact iterate_complete corpus k (initRank corpus) temp0 hc hp

/-- Witness for C3 on the two-page cycle, which converges on the very
first update. -/
theorem C3_convergence_witness :
    ∃ k, [("A", (1 : ℚ) / 2), ("B", (1 : ℚ) / 2)] =
        stepN [("A", ["B"]), ("B", ["A"])] (k + 1)
          (initRank [("A", ["B"]), ("B", ["A"])]) ∧
      (∃ m, delta [("A", ["B"]), ("B", ["A"])]
          (stepN [("A", ["B"]), ("B", ["A"])] k
            (initRank [("A", ["B"]), ("B", ["A"])])) = some m ∧ m ≤ 1 / 1000) ∧
      (∀ j, j < k → ∃ m, delta [("A", ["B"]), ("B", ["A"])]
          (stepN [("A", ["B"]), ("B", ["A"])] j
            (initRank [("A", ["B"]), ("B", ["A"])])) = some m ∧ 1 / 1000 < m) :=
  (C3_convergence [("A", ["B"]), ("B", ["A"])] (85 / 100)).2.1 none 1
    [("A", (1 : ℚ) / 2), ("B", (1 : ℚ) / 2)]
    (some [("A", (1 : ℚ) / 2), ("B", (1 : ℚ) / 2)])
    (by with_unfolding_all decide)

/-- C9 amended: the working vector of iterate is the process-wide variable
temp, and a successful run of iterate_pagerank leaves that global bound to
exactly the vector it returns (the Python return value and the global are
the same object). -/
theorem C9_amended (corpus : Graph) (d : ℚ) (temp0 : Option RankV) (fuel : ℕ)
    (r : RankV) (gl : Option RankV)
    (h : iterate_pagerank corpus d temp0 fuel = some (r, gl)) : gl = some r :=
  iterate_global corpus fuel (initRank corpus) temp0 r gl h

/-- Witness for C9 amended on the two-page cycle. -/
theorem C9_amended_witness :
    (some [("A", (1 : ℚ) / 2), ("B", (1 : ℚ) / 2)] : Option RankV) =
      some [("A", (1 : ℚ) / 2), ("B", (1 : ℚ) / 2)] :=
  C9_amended [("A", ["B"]), ("B", ["A"])] (85 / 100) none 1
    [("A", (1 : ℚ) / 2), ("B", (1 : ℚ) / 2)]
    (some [("A", (1 : ℚ) / 2), ("B", (1 : ℚ) / 2)])
    (by with_unfolding_all decide)


theorem dictGet_getD_nonneg (v : RankV) (hv : ∀ kv ∈ v, 0 ≤ kv.2)
    (p : PageId) : 0 ≤ (dictGet v p).getD 0 := by
  cases h : dictGet v p with
  | none => simp
  | some b =>
    have := hv (p, b) (dictGet_mem v p b h)
    simpa using this

theorem summation_foldl_nonneg (c : Graph) (v : RankV)
    (hv : ∀ kv ∈ v, 0 ≤ kv.2) (k : PageId) :
    ∀ (l : List (PageId × List PageId)) (a : ℚ), 0 ≤ a →
      0 ≤ l.foldl (fun acc kv =>
        if kv.2.length = 0 then acc + (dictGet v kv.1).getD 0 / (c.length : ℚ)
        else if k ∈ kv.2 then acc + (dictGet v kv.1).getD 0 / (kv.2.length : ℚ)
        else acc) a := by
  intro l
  induction l with
  | nil => intro a ha; exact ha
  | cons kv t ih =>
    intro a ha
    rw [List.foldl_cons]
    apply ih
    by_cases h0 : kv.2.length = 0
    · rw [if_pos h0]
      exact add_nonneg ha (div_nonneg (dictGet_getD_nonneg v hv kv.1) (Nat.cast_nonneg _))
    · rw [if_neg h0]
      by_cases hk : k ∈ kv.2
      · rw [if_pos hk]
        exact add_nonneg ha (div_nonneg (dictGet_getD_nonneg v hv kv.1) (Nat.cast_nonneg _))
      · rw [if_neg hk]
        exact ha

theorem summation_nonneg (c : Graph) (v : RankV) (hv : ∀ kv ∈ v, 0 ≤ kv.2)
    (k : PageId) : 0 ≤ summation c v k :=
  summation_foldl_nonneg c v hv k c 0 le_rfl

theorem step_lower (c : Graph) (v : RankV) (hv : ∀ kv ∈ v, 0 ≤ kv.2) :
    ∀ kv ∈ step c v, (1 - DAMPING) / (c.length : ℚ) ≤ kv.2 := by
  intro kv hkv
  rw [step, List.mem_map] at hkv
  obtain ⟨kv0, _, rfl⟩ := hkv
  exact le_add_of_nonneg_right
    (mul_nonneg (by norm_num [DAMPING]) (summation_nonneg c v hv kv0.1))

theorem step_nonneg (c : Graph) (v : RankV) (hv : ∀ kv ∈ v, 0 ≤ kv.2) :
    ∀ kv ∈ step c v, 0 ≤ kv.2 := by
  intro kv hkv
  refine le_trans ?_ (step_lower c v hv kv hkv)
  exact div_nonneg (by norm_num [DAMPING]) (Nat.cast_nonneg _)

theorem iterate_lower (c : Graph) :
    ∀ f v g r gl, (∀ kv ∈ v, 0 ≤ kv.2) → iterate c f v g = some (r, gl) →
      ∀ kv ∈ r, (1 - DAMPING) / (c.length : ℚ) ≤ kv.2 := by
  intro f
  induction f with
  | zero =>
    intro v g r gl _ h
    exact absurd h (by simp [iterate])
  | succ f ih =>
    intro v g r gl hv h
    unfold iterate at h
    replace h : (match maxList (diffs v (step c v)) with
      | none => none
      | some m =>
        if 1 / 1000 < m then
          match iterate c f (step c v) (some (step c v)) with
          | none => none
          | some (_discarded, g) => some (g.getD (step c v), g)
        else some (step c v, some (step c v))) = some (r, gl) := h
    cases hm : maxList (diffs v (step c v)) with
    | none => rw [hm] at h; exact absurd h (by simp)
    | some m =>
      rw [hm] at h
      dsimp only at h
      by_cases ht : 1 / 1000 < m
      · rw [if_pos ht] at h
        cases hr : iterate c f (step c v) (some (step c v)) with
        | none => rw [hr] at h; exact absurd h (by simp)
        | some p =>
          obtain ⟨r2, g2⟩ := p
          rw [hr] at h
          dsimp only at h
          have hg : g2 = some r2 := iterate_global c f _ _ _ _ hr
          have h1 : g2.getD (step c v) = r := by injection h with h2; injection h2
          have hrr : r = r2 := by rw [← h1, hg]; rfl
          rw [hrr]
          exact ih (step c v) (some (step c v)) r2 g2 (step_nonneg c v hv) hr
      · rw [if_neg ht] at h
        have h1 : step c v = r := by injection h with h2; injection h2
        rw [← h1]
        exact step_lower c v hv

/-- C10: every rank returned by iterate_pagerank on a non-empty graph is
at least (1 - 0.85) / N, hence strictly positive: the update on line 154
adds (1 - DAMPING) / N to a non-negative damped sum, every returned vector
is the result of at least one update, and non-negativity of the vector is
preserved from the 1 / N initialization through every pass. -/
theorem C10_lower_bound (corpus : Graph) (d : ℚ) (temp0 : Option RankV)
    (fuel : ℕ) (r : RankV) (gl : Option RankV) (hne : corpus ≠ [])
    (h : iterate_pagerank corpus d temp0 fuel = some (r, gl)) :
    ∀ kv ∈ r, (1 - 85 / 100) / (corpus.length : ℚ) ≤ kv.2 ∧ 0 < kv.2 := by
  have hinit : ∀ kv ∈ initRank corpus, 0 ≤ kv.2 := by
    intro kv hkv
    rw [initRank, List.mem_map] at hkv
    obtain ⟨kv0, _, rfl⟩ := hkv
    exact div_nonneg (by norm_num) (Nat.cast_nonneg _)
  have hb := iterate_lower corpus fuel (initRank corpus) temp0 r gl hinit h
  intro kv hkv
  have h1 := hb kv hkv
  have hN : 0 < (corpus.length : ℚ) := by
    have h2 : 0 < corpus.length := List.length_pos.mpr hne
    exact_mod_cast h2
  have hpos : 0 < (1 - DAMPING) / (corpus.length : ℚ) :=
    div_pos (by norm_num [DAMPING]) hN
  exact ⟨h1, lt_of_lt_of_le hpos h1⟩

/-- Witness for C10 on the two-page cycle, evaluated at page A. -/
theorem C10_lower_bound_witness :
    (1 - 85 / 100) / ((([("A", ["B"]), ("B", ["A"])] : Graph).length : ℚ)) ≤ (1 : ℚ) / 2 ∧
      0 < ((1 : ℚ) / 2) :=
  C10_lower_bound [("A", ["B"]), ("B", ["A"])] (85 / 100) none 1
    [("A", (1 : ℚ) / 2), ("B", (1 : ℚ) / 2)]
    (some [("A", (1 : ℚ) / 2), ("B", (1 : ℚ) / 2)])
    (by decide) (by with_unfolding_all decide)
    ("A", (1 : ℚ) / 2) (by with_unfolding_all decide)


theorem wchoiceAux_mem :
    ∀ (l : List (PageId × ℚ)) (tg : ℚ), l ≠ [] →
      ∃ p, wchoiceAux l tg = some p ∧ p ∈ l.map Prod.fst := by
  intro l
  induction l with
  | nil => intro tg h; exact absurd rfl h
  | cons x l2 ih =>
    intro tg _
    cases l2 with
    | nil =>
      obtain ⟨a, w⟩ := x
      exact ⟨a, rfl, by simp⟩
    | cons y t2 =>
      obtain ⟨a, w⟩ := x
      by_cases hlt : tg < w
      · refine ⟨a, ?_, by simp⟩
        rw [wchoiceAux, if_pos hlt]
      · obtain ⟨p, hp, hmem⟩ := ih (tg - w) (by simp)
        refine ⟨p, ?_, by simp only [List.map_cons, List.mem_cons]; right; simpa using hmem⟩
        rw [wchoiceAux, if_neg hlt]
        exact hp

theorem wchoice_mem (items : List (PageId × ℚ)) (u : ℚ) (h : items ≠ []) :
    ∃ p, wchoice items u = some p ∧ p ∈ items.map Prod.fst :=
  wchoiceAux_mem items (u * (items.map Prod.snd).sum) h

theorem bump_keys (r : List (PageId × ℕ)) (p : PageId) :
    (bump r p).map Prod.fst = r.map Prod.fst := by
  simp only [bump, List.map_map]
  refine List.map_congr_left (fun kv _ => ?_)
  by_cases h : kv.1 = p <;> simp [h]

theorem bump_not_mem (r : List (PageId × ℕ)) (p : PageId)
    (h : p ∉ r.map Prod.fst) : bump r p = r := by
  induction r with
  | nil => rfl
  | cons kv t ih =>
    simp only [List.map_cons, List.mem_cons, not_or] at h
    have e : ¬ kv.1 = p := fun e2 => h.1 e2.symm
    show (if kv.1 = p then (kv.1, kv.2 + 1) else kv) :: bump t p = kv :: t
    rw [if_neg e, ih h.2]

theorem bump_sum (r : List (PageId × ℕ)) (p : PageId)
    (hnd : (r.map Prod.fst).Nodup) (hmem : p ∈ r.map Prod.fst) :
    ((bump r p).map Prod.snd).sum = (r.map Prod.snd).sum + 1 := by
  induction r with
  | nil => simp at hmem
  | cons kv t ih =>
    rw [List.map_cons, List.nodup_cons] at hnd
    simp only [List.map_cons, List.mem_cons] at hmem
    show (((if kv.1 = p then (kv.1, kv.2 + 1) else kv) :: bump t p).map Prod.snd).sum = _
    by_cases e : kv.1 = p
    · rw [if_pos e]
      rw [← e] at hmem ⊢
      rw [bump_not_mem t kv.1 hnd.1]
      simp only [List.map_cons, List.sum_cons]
      omega
    · rw [if_neg e]
      have hmem2 : p ∈ t.map Prod.fst := by
        rcases hmem with h1 | h1
        · exact absurd h1.symm e
        · exact h1
      simp only [List.map_cons, List.sum_cons]
      rw [ih hnd.2 hmem2]
      omega

theorem sampleSteps_sound (corpus : Graph) (d : ℚ)
    (hne : corpus ≠ []) (hnd : (corpus.map Prod.fst).Nodup) :
    ∀ (t : ℕ) (us : ℕ → ℚ) (sequence : Dist) (results : List (PageId × ℕ)),
      sequence.map Prod.fst = corpus.map Prod.fst →
      results.map Prod.fst = corpus.map Prod.fst →
      ∃ res, sampleSteps corpus d t us sequence results = some res ∧
        res.map Prod.fst = corpus.map Prod.fst ∧
        (res.map Prod.snd).sum = (results.map Prod.snd).sum + t := by
  intro t
  induction t with
  | zero =>
    intro us seq results hseq hres
    exact ⟨results, rfl, hres, by omega⟩
  | succ t ih =>
    intro us seq results hseq hres
    have hseqne : seq ≠ [] := by
      intro e
      rw [e] at hseq
      exact hne (List.map_eq_nil_iff.mp hseq.symm)
    obtain ⟨next, hnext, hnextmem⟩ := wchoice_mem seq (us 0) hseqne
    have hnextcorpus : next ∈ corpus.map Prod.fst := hseq ▸ hnextmem
    obtain ⟨seq2, hseq2⟩ := transition_model_isSome corpus next d hnextcorpus
    have hseq2keys := transition_model_keys corpus next d seq2 hseq2
    obtain ⟨res, hres2, hkeys, hsum⟩ := ih (fun i => us (i + 1)) seq2
      (bump results next) hseq2keys (by rw [bump_keys]; exact hres)
    refine ⟨res, ?_, hkeys, ?_⟩
    · show (match wchoice seq (us 0) with
        | none => none
        | some next_page =>
          match transition_model corpus next_page d with
          | none => none
          | some seq2 =>
            sampleSteps corpus d t (fun i => us (i + 1)) seq2
              (bump results next_page)) = some res
      rw [hnext]
      dsimp only
      rw [hseq2]
      exact hres2
    · rw [hsum, bump_sum results next (hres ▸ hnd) (by rw [hres]; exact hnextcorpus)]
      omega

theorem sum_map_div (l : List (PageId × ℕ)) (c : ℚ) :
    (l.map (fun kv => (kv.2 : ℚ) / c)).sum = (l.map (fun kv => (kv.2 : ℚ))).sum / c := by
  induction l with
  | nil => simp
  | cons kv t ih => simp [ih, add_div]


/-- C5: on a non-empty graph with distinct pages, for any damping, any
n at least 1, and any random draw stream, sample_pagerank picks a starting
page from the key list (recording one visit), performs n - 1 weighted
draws each recording one visit and each followed by recomputing the
transition model of the drawn page (the structure of sampleSteps), and
returns every visit count divided by n; the visit counts sum to exactly n
(they partition the n samples), so the returned ranks are non-negative and
sum to exactly 1. -/
theorem C5_sampler (corpus : Graph) (d : ℚ) (n : ℤ) (us : ℕ → ℚ)
    (hne : corpus ≠ []) (hnd : (corpus.map Prod.fst).Nodup)
    (hn : 1 ≤ n) (hu0 : 0 ≤ us 0) (hu1 : us 0 < 1) :
    ∃ (visits : List (PageId × ℕ)) (out : Dist),
      sample_pagerank corpus d n us = some out ∧
      out = visits.map (fun kv => (kv.1, (kv.2 : ℚ) / (n : ℚ))) ∧
      visits.map Prod.fst = corpus.map Prod.fst ∧
      ((visits.map Prod.snd).sum : ℤ) = n ∧
      (∀ kv ∈ out, 0 ≤ kv.2) ∧
      (out.map Prod.snd).sum = 1 := by
  have hN : 0 < corpus.length := List.length_pos.mpr hne
  have hNq : 0 < (corpus.length : ℚ) := by exact_mod_cast hN
  have hfl0 : 0 ≤ ⌊us 0 * (corpus.length : ℚ)⌋ :=
    Int.floor_nonneg.mpr (mul_nonneg hu0 (le_of_lt hNq))
  have hltq : us 0 * (corpus.length : ℚ) < ((corpus.length : ℤ) : ℚ) := by
    have h1 : us 0 * (corpus.length : ℚ) < (corpus.length : ℚ) :=
      mul_lt_of_lt_one_left hNq hu1
    exact_mod_cast h1
  have hflN : ⌊us 0 * (corpus.length : ℚ)⌋ < (corpus.length : ℤ) :=
    Int.floor_lt.mpr hltq
  have hidx : pickIndex (us 0) corpus.length < (corpus.map Prod.fst).length := by
    rw [List.length_map, pickIndex]
    exact (Int.toNat_lt hfl0).mpr hflN
  obtain ⟨page0, hpage0⟩ : ∃ p,
      (corpus.map Prod.fst)[pickIndex (us 0) corpus.length]? = some p :=
    ⟨_, List.getElem?_eq_getElem hidx⟩
  have hpage0mem : page0 ∈ corpus.map Prod.fst := List.getElem?_mem hpage0
  obtain ⟨seq0, hseq0⟩ := transition_model_isSome corpus page0 d hpage0mem
  have hseq0keys := transition_model_keys corpus page0 d seq0 hseq0
  have hres0keys : (corpus.map (fun kv => (kv.1, (0 : ℕ)))).map Prod.fst =
      corpus.map Prod.fst := by
    simp [List.map_map]
  have hres0sum : ((corpus.map (fun kv => (kv.1, (0 : ℕ)))).map Prod.snd).sum = 0 := by
    apply List.sum_eq_zero
    intro x hx
    simp only [List.map_map, List.mem_map] at hx
    obtain ⟨kv0, _, rfl⟩ := hx
    rfl
  have hres1keys : ((bump (corpus.map (fun kv => (kv.1, (0 : ℕ)))) page0).map Prod.fst) =
      corpus.map Prod.fst := by
    rw [bump_keys]
    exact hres0keys
  have hres1sum : ((bump (corpus.map (fun kv => (kv.1, (0 : ℕ)))) page0).map Prod.snd).sum
      = 1 := by
    rw [bump_sum _ page0 (by rw [hres0keys]; exact hnd) (by rw [hres0keys]; exact hpage0mem),
      hres0sum]
  obtain ⟨visits, hsteps, hvkeys, hvsum⟩ := sampleSteps_sound corpus d hne hnd
    (n - 1).toNat (fun i => us (i + 1)) seq0
    (bump (corpus.map (fun kv => (kv.1, (0 : ℕ)))) page0) hseq0keys hres1keys
  rw [hres1sum] at hvsum
  have hvsumZ : ((visits.map Prod.snd).sum : ℤ) = n := by omega
  have hnne : ¬ n = 0 := by omega
  refine ⟨visits, visits.map (fun kv => (kv.1, (kv.2 : ℚ) / (n : ℚ))), ?_, rfl, hvkeys,
    hvsumZ, ?_, ?_⟩
  · show (match (corpus.map Prod.fst)[pickIndex (us 0) corpus.length]? with
      | none => none
      | some random_page =>
        match transition_model corpus random_page d with
        | none => none
        | some sequence =>
          match sampleSteps corpus d (n - 1).toNat (fun i => us (i + 1)) sequence
              (bump (corpus.map (fun kv => (kv.1, 0))) random_page) with
          | none => none
          | some results =>
            if n = 0 then none
            else some (results.map (fun kv => (kv.1, (kv.2 : ℚ) / (n : ℚ))))) =
      some (visits.map (fun kv => (kv.1, (kv.2 : ℚ) / (n : ℚ))))
    rw [hpage0]
    dsimp only
    rw [hseq0]
    dsimp only
    rw [hsteps]
    dsimp only
    rw [if_neg hnne]
  · intro kv hkv
    rw [List.mem_map] at hkv
    obtain ⟨kv0, _, rfl⟩ := hkv
    have hnq : (0 : ℚ) ≤ (n : ℚ) := by exact_mod_cast (by omega : (0 : ℤ) ≤ n)
    exact div_nonneg (Nat.cast_nonneg _) hnq
  · rw [List.map_map]
    show (visits.map (fun kv => (kv.2 : ℚ) / (n : ℚ))).sum = 1
    rw [sum_map_div]
    have hcast : (visits.map (fun kv => (kv.2 : ℚ))).sum =
        (((visits.map Prod.snd).sum : ℕ) : ℚ) := by
      rw [Nat.cast_list_sum, List.map_map]
      rfl
    rw [hcast]
    have hq : (((visits.map Prod.snd).sum : ℕ) : ℚ) = (n : ℚ) := by
      rw [← hvsumZ]
      push_cast
      simp [List.map_map, Function.comp_def, Int.cast_natCast]
    rw [hq]
    exact div_self (by exact_mod_cast hnne)

/-- Witness for C5 on the one-page graph with n = 3 and the constant draw
stream 0. -/
theorem C5_sampler_witness :
    ∃ (visits : List (PageId × ℕ)) (out : Dist),
      sample_pagerank [("a.html", [])] (85 / 100) 3 (fun _ => 0) = some out ∧
      out = visits.map (fun kv => (kv.1, (kv.2 : ℚ) / ((3 : ℤ) : ℚ))) ∧
      visits.map Prod.fst = ([("a.html", [])] : Graph).map Prod.fst ∧
      ((visits.map Prod.snd).sum : ℤ) = 3 ∧
      (∀ kv ∈ out, 0 ≤ kv.2) ∧
      (out.map Prod.snd).sum = 1 :=
  C5_sampler [("a.html", [])] (85 / 100) 3 (fun _ => 0)
    (by decide) (by decide) (by decide) (by norm_num) (by norm_num)


theorem roundHalfEven_abs (x : ℚ) : |(roundHalfEven x : ℚ) - x| ≤ 1 / 2 := by
  have h0 : ((⌊x⌋ : ℚ)) ≤ x := Int.floor_le x
  have h1 : x < (⌊x⌋ : ℚ) + 1 := Int.lt_floor_add_one x
  rw [roundHalfEven]
  split_ifs with c1 c2 c3 <;>
    (rw [abs_le]; push_cast; constructor <;> linarith)

theorem round4_abs (x : ℚ) : |round4 x - x| ≤ 1 / 20000 := by
  have h := roundHalfEven_abs (x * 10000)
  have h2 : round4 x - x = ((roundHalfEven (x * 10000) : ℚ) - x * 10000) / 10000 := by
    rw [round4]
    ring
  rw [h2, abs_div]
  have h3 : |(10000 : ℚ)| = 10000 := by norm_num
  rw [h3]
  calc |(roundHalfEven (x * 10000) : ℚ) - x * 10000| / 10000
      ≤ (1 / 2) / 10000 := by
        apply div_le_div_of_nonneg_right h
        norm_num
    _ = 1 / 20000 := by norm_num

theorem round4_nonneg (x : ℚ) (hx : 0 ≤ x) : 0 ≤ round4 x := by
  have hfl : (0 : ℤ) ≤ ⌊x * 10000⌋ := Int.floor_nonneg.mpr (by positivity)
  have hR : (0 : ℤ) ≤ roundHalfEven (x * 10000) := by
    rw [roundHalfEven]
    split_ifs <;> omega
  rw [round4]
  have hRq : (0 : ℚ) ≤ (roundHalfEven (x * 10000) : ℚ) := by exact_mod_cast hR
  positivity

theorem sum_map_const_q (l : List (PageId × List PageId)) (c : ℚ) :
    (l.map (fun _ => c)).sum = (l.length : ℚ) * c := by
  induction l with
  | nil => simp
  | cons kv t ih =>
    simp only [List.map_cons, List.sum_cons, List.length_cons, ih]
    push_cast
    ring

theorem sum_if_mem (l : List (PageId × List PageId)) (links : List PageId) (A B : ℚ) :
    (l.map (fun kv => if kv.1 ∈ links then A else B)).sum =
      (l.countP (fun kv => decide (kv.1 ∈ links)) : ℚ) * A +
      (l.countP (fun kv => !decide (kv.1 ∈ links)) : ℚ) * B := by
  induction l with
  | nil => simp
  | cons kv t ih =>
    simp only [List.map_cons, List.sum_cons, List.countP_cons, ih]
    by_cases h : kv.1 ∈ links <;> simp [h] <;> push_cast <;> ring

theorem countP_links (corpus : Graph) (links : List PageId)
    (hnd : (corpus.map Prod.fst).Nodup) (hlnd : links.Nodup)
    (hsub : ∀ a ∈ links, a ∈ corpus.map Prod.fst) :
    corpus.countP (fun kv => decide (kv.1 ∈ links)) = links.length := by
  have h1 : (corpus.map Prod.fst).countP (fun k => decide (k ∈ links)) =
      corpus.countP (fun kv => decide (kv.1 ∈ links)) := List.countP_map _ _ _
  rw [← h1, List.countP_eq_length_filter]
  have hperm : ((corpus.map Prod.fst).filter (fun k => decide (k ∈ links))).Perm links := by
    apply List.perm_of_nodup_nodup_toFinset_eq (hnd.filter _) hlnd
    apply Finset.ext
    intro a
    simp only [List.mem_toFinset, List.mem_filter, decide_eq_true_eq]
    constructor
    · intro h2
      exact h2.2
    · intro h2
      exact ⟨hsub a h2, h2⟩
  exact hperm.length_eq

/-- C2 amended: transition_model, on a well-formed non-empty graph and a
page of it, returns a mapping with exactly the pages of the graph as keys
and all values non-negative; when the link set is non-empty the values sum
to 1 up to the rounding of the unlinked entries, within
(N - len(links)) / 20000, but when the link set is empty they sum to
exactly damping (the dangling branch on line 68 distributes damping / N,
not 1 / N). -/
theorem C2_amended (corpus : Graph) (page : PageId) (d : ℚ) (links : List PageId)
    (hne : corpus ≠ []) (hget : dictGet corpus page = some links)
    (hnd : (corpus.map Prod.fst).Nodup) (hlnd : links.Nodup)
    (hsub : ∀ a ∈ links, a ∈ corpus.map Prod.fst)
    (hd0 : 0 ≤ d) (hd1 : d ≤ 1) :
    ∃ out, transition_model corpus page d = some out ∧
      out.map Prod.fst = corpus.map Prod.fst ∧
      (∀ kv ∈ out, 0 ≤ kv.2) ∧
      (links = [] → (out.map Prod.snd).sum = d) ∧
      (links ≠ [] →
        |(out.map Prod.snd).sum - 1| ≤
          ((corpus.length : ℚ) - (links.length : ℚ)) / 20000) := by
  have hN : 0 < corpus.length := List.length_pos.mpr hne
  have hNq : (0 : ℚ) < (corpus.length : ℚ) := by exact_mod_cast hN
  unfold transition_model
  rw [hget]
  dsimp only
  by_cases h0 : links.length = 0
  · rw [if_pos h0]
    have hlnil : links = [] := List.length_eq_zero.mp h0
    refine ⟨_, rfl, by simp [List.map_map], ?_, ?_, ?_⟩
    · intro kv hkv
      rw [List.mem_map] at hkv
      obtain ⟨kv0, _, rfl⟩ := hkv
      exact div_nonneg hd0 (le_of_lt hNq)
    · intro _
      rw [List.map_map]
      show (corpus.map (fun _ => d / (corpus.length : ℚ))).sum = d
      rw [sum_map_const_q]
      exact mul_div_cancel₀ d (ne_of_gt hNq)
    · intro hcontra
      exact absurd hlnil hcontra
  · rw [if_neg h0]
    have hlne : links ≠ [] := fun e => h0 (by simp [e])
    have hLq : (0 : ℚ) < (links.length : ℚ) := by
      have h1 : 0 < links.length := List.length_pos.mpr hlne
      exact_mod_cast h1
    refine ⟨_, rfl, ?_, ?_, ?_, ?_⟩
    · simp only [List.map_map]
      refine List.map_congr_left (fun kv _ => ?_)
      by_cases hm : kv.1 ∈ links <;> simp [hm]
    · intro kv hkv
      rw [List.mem_map] at hkv
      obtain ⟨kv0, _, rfl⟩ := hkv
      by_cases hm : kv0.1 ∈ links
      · simp only [if_pos hm]
        have h1 : (0 : ℚ) ≤ d / (links.length : ℚ) := div_nonneg hd0 (le_of_lt hLq)
        have h2 : (0 : ℚ) ≤ (1 - d) / (corpus.length : ℚ) :=
          div_nonneg (by linarith) (le_of_lt hNq)
        exact add_nonneg h1 h2
      · simp only [if_neg hm]
        exact round4_nonneg _ (div_nonneg (by linarith) (le_of_lt hNq))
    · intro hcontra
      exact absurd hcontra hlne
    · intro _
      have hsnd : ((corpus.map (fun kv =>
          if kv.1 ∈ links then
            (kv.1, d / (links.length : ℚ) + (1 - d) / (corpus.length : ℚ))
          else (kv.1, round4 ((1 - d) / (corpus.length : ℚ))))).map Prod.snd) =
          corpus.map (fun kv =>
            if kv.1 ∈ links then d / (links.length : ℚ) + (1 - d) / (corpus.length : ℚ)
            else round4 ((1 - d) / (corpus.length : ℚ))) := by
        rw [List.map_map]
        refine List.map_congr_left (fun kv _ => ?_)
        by_cases hm : kv.1 ∈ links <;> simp [hm]
      rw [hsnd, sum_if_mem, countP_links corpus links hnd hlnd hsub]
      have hcnt : corpus.length =
          links.length + corpus.countP (fun kv => !decide (kv.1 ∈ links)) := by
        have h2 := List.length_eq_countP_add_countP
          (fun kv => decide (kv.1 ∈ links)) (l := corpus)
        rw [countP_links corpus links hnd hlnd hsub] at h2
        simpa only [decide_eq_true_eq, decide_not] using h2
      have hcntq : (corpus.countP (fun kv => !decide (kv.1 ∈ links)) : ℚ) =
          (corpus.length : ℚ) - (links.length : ℚ) := by
        have h1 : corpus.countP (fun kv => !decide (kv.1 ∈ links)) =
            corpus.length - links.length := by omega
        have hle : links.length ≤ corpus.length := by omega
        rw [h1]
        push_cast [hle]
        ring
      rw [hcntq]
      have hkey : (links.length : ℚ) *
            (d / (links.length : ℚ) + (1 - d) / (corpus.length : ℚ)) +
            ((corpus.length : ℚ) - (links.length : ℚ)) *
              round4 ((1 - d) / (corpus.length : ℚ)) - 1 =
          ((corpus.length : ℚ) - (links.length : ℚ)) *
            (round4 ((1 - d) / (corpus.length : ℚ)) - (1 - d) / (corpus.length : ℚ)) := by
        field_simp
        ring
      rw [hkey, abs_mul]
      have hNL : (0 : ℚ) ≤ (corpus.length : ℚ) - (links.length : ℚ) := by
        have hle : links.length ≤ corpus.length := by omega
        have h1 : (links.length : ℚ) ≤ (corpus.length : ℚ) := by exact_mod_cast hle
        linarith
      rw [abs_of_nonneg hNL]
      calc ((corpus.length : ℚ) - (links.length : ℚ)) *
            |round4 ((1 - d) / (corpus.length : ℚ)) - (1 - d) / (corpus.length : ℚ)|
          ≤ ((corpus.length : ℚ) - (links.length : ℚ)) * (1 / 20000) :=
            mul_le_mul_of_nonneg_left (round4_abs _) hNL
        _ = ((corpus.length : ℚ) - (links.length : ℚ)) / 20000 := by ring

/-- Witness for C2 amended on the two-page cycle at damping 0.85. -/
theorem C2_amended_witness :
    ∃ out, transition_model [("1.html", ["2.html"]), ("2.html", ["1.html"])]
        "1.html" (85 / 100) = some out ∧
      out.map Prod.fst =
        ([("1.html", ["2.html"]), ("2.html", ["1.html"])] : Graph).map Prod.fst ∧
      (∀ kv ∈ out, 0 ≤ kv.2) ∧
      ((["2.html"] : List PageId) = [] → (out.map Prod.snd).sum = 85 / 100) ∧
      ((["2.html"] : List PageId) ≠ [] →
        |(out.map Prod.snd).sum - 1| ≤
          ((([("1.html", ["2.html"]), ("2.html", ["1.html"])] : Graph).length : ℚ) -
            (((["2.html"] : List PageId)).length : ℚ)) / 20000) :=
  C2_amended [("1.html", ["2.html"]), ("2.html", ["1.html"])] "1.html" (85 / 100)
    ["2.html"] (by decide) (by decide) (by decide) (by decide) (by decide)
    (by norm_num) (by norm_num)

end Pagerank
